import Mathlib

/-!
Verification of the futil sorting library (`src/sort.hpp`).

The C++ functions are generic over iterators.  We embed them shallowly:
an iterator into the underlying storage is a `Nat` index into a `List α`,
dereference `*it` is `idx l i`, `std::iter_swap` is `swap`, and each loop
becomes a fuel-indexed structurally recursive function; every call site
passes fuel that dominates the number of iterations of the C++ loop, so
the embedded functions agree with the terminating executions of the code.
`merge_sort`'s auxiliary buffer is a second list (the spec requires it to
be disjoint storage from the range being sorted).
-/

set_option linter.unusedSectionVars false
set_option maxRecDepth 100000

namespace futil

variable {α : Type} [Inhabited α]

/-- Dereference of the position `p` of the underlying sequence (`*(base + p)`). -/
def idx (l : List α) (p : Nat) : α := (l[p]?).getD default

/-- `std::iter_swap` of positions `i` and `j`. -/
def swap (l : List α) (i j : Nat) : List α := (l.set i (idx l j)).set j (idx l i)

/-- The contiguous segment `[a, b)` of the underlying sequence
(the values a range `[first, last)` of iterators denotes). -/
def seg (l : List α) (a b : Nat) : List α := (l.take b).drop a

/-- Writing the values `xs` sequentially through an output iterator starting
at position `pos` (used for `std::merge`'s output and for `std::copy`). -/
def writeSeg (l : List α) (pos : Nat) : List α → List α
  | [] => l
  | x :: xs => writeSeg (l.set pos x) (pos + 1) xs

/-- The comparator contract of the library: `comp` implements a strict weak
ordering (irreflexive, transitive, and with transitive complement). -/
structure SWO (comp : α → α → Bool) : Prop where
  irrefl : ∀ a, comp a a = false
  lt_trans : ∀ {a b c}, comp a b = true → comp b c = true → comp a c = true
  ge_trans : ∀ {a b c}, comp b a = false → comp c b = false → comp c a = false

/-- The range `[first, last)` of `l` is non-decreasing according to `comp`:
no element `comp`-precedes an element at an earlier (or equal) position. -/
def sortedOn (comp : α → α → Bool) (l : List α) (first last : Nat) : Prop :=
  ∀ p q, first ≤ p → p ≤ q → q < last → comp (idx l q) (idx l p) = false

/-!  `insertion_sort` (src/sort.hpp lines 44-57).

    for (i = first; i != last; ++i)
      for (j = i; j != first; --j) {
        k = std::prev(j);
        if (!comp(*j, *k)) break;
        std::iter_swap(j, k);
      }

The inner loop's iterator `j` starts at `i ≥ first` and steps down by one,
so the C++ guard `j != first` is `first < j` here; the recursion on `j` is
structural. -/

/-- Inner loop of `insertion_sort`, at current outer position containing the
value being sifted down; `j` is the loop variable. -/
def insInner (first : Nat) (comp : α → α → Bool) : Nat → List α → List α
  | 0, l => l
  | j + 1, l =>
    if j + 1 ≤ first then l
    else if comp (idx l (j + 1)) (idx l j) then
      insInner first comp j (swap l (j + 1) j)
    else l

/-- Outer loop of `insertion_sort`: `i` runs from `first` while `i != last`.
The fuel dominates `last - i`. -/
def insOuterF (first last : Nat) (comp : α → α → Bool) : Nat → Nat → List α → List α
  | 0, _, l => l
  | fuel + 1, i, l =>
    if i < last then insOuterF first last comp fuel (i + 1) (insInner first comp i l)
    else l

/-- `futil::insertion_sort(first, last, comp)`. -/
def insertion_sort (first last : Nat) (comp : α → α → Bool) (l : List α) : List α :=
  insOuterF first last comp (last - first) first l

/-!  `knuth_seq` (src/sort.hpp lines 67-75).

    N k{1};
    while (k < n/3) { k = 3*k + 1; }
    return k;

`k` strictly increases while below `n / 3`, so `n` iterations of fuel are
more than enough. -/

/-- Loop of `knuth_seq`. -/
def knuth_seqAux (n : Nat) : Nat → Nat → Nat
  | 0, k => k
  | fuel + 1, k => if k < n / 3 then knuth_seqAux n fuel (3 * k + 1) else k

/-- `futil::knuth_seq(n)` (anonymous-namespace helper). -/
def knuth_seq (n : Nat) : Nat := knuth_seqAux n n 1

/-- The Knuth gap sequence `k₀ = 1`, `k_{i+1} = 3·k_i + 1` (the sequence the
spec's contract for `knuth_seq` refers to). -/
def kterm : Nat → Nat
  | 0 => 1
  | i + 1 => 3 * kterm i + 1

/-!  `h_sort` (src/sort.hpp lines 85-99).

    for (i = first + h; i < last; ++i)
      for (j = i; j - first >= h; j -= h) {
        k = j - h;
        if (comp(*j, *k)) std::iter_swap(j, k);
      }

The inner guard `j - first >= h` on iterators is `first + h ≤ j`.  The
inner loop has no break: it always scans down to the bottom of the stride.
Inner fuel `i + 1` dominates the iteration count for every `h > 0`. -/

/-- Inner loop of `h_sort`. -/
def hInnerF (first h : Nat) (comp : α → α → Bool) : Nat → Nat → List α → List α
  | 0, _, l => l
  | fuel + 1, j, l =>
    if first + h ≤ j then
      hInnerF first h comp fuel (j - h)
        (if comp (idx l j) (idx l (j - h)) then swap l j (j - h) else l)
    else l

/-- Outer loop of `h_sort`. -/
def hOuterF (first last h : Nat) (comp : α → α → Bool) : Nat → Nat → List α → List α
  | 0, _, l => l
  | fuel + 1, i, l =>
    if i < last then
      hOuterF first last h comp fuel (i + 1) (hInnerF first h comp (i + 1) i l)
    else l

/-- `futil::h_sort(first, last, h, comp)` (anonymous-namespace helper). -/
def h_sort (first last h : Nat) (comp : α → α → Bool) (l : List α) : List α :=
  hOuterF first last h comp (last - (first + h)) (first + h) l

/-!  `shell_sort` (src/sort.hpp lines 114-121).

    for (auto h = knuth_seq(last - first); h > 0; h /= 3)
      h_sort(first, last, h, comp);

`h` strictly decreases while positive, so fuel `h₀ + 1` suffices. -/

/-- Gap loop of `shell_sort`. -/
def shellF (first last : Nat) (comp : α → α → Bool) : Nat → Nat → List α → List α
  | 0, _, l => l
  | fuel + 1, h, l =>
    if 0 < h then shellF first last comp fuel (h / 3) (h_sort first last h comp l)
    else l

/-- `futil::shell_sort(first, last, comp)`. -/
def shell_sort (first last : Nat) (comp : α → α → Bool) (l : List α) : List α :=
  shellF first last comp (knuth_seq (last - first) + 1) (knuth_seq (last - first)) l

/-!  `merge_sort` (src/sort.hpp lines 136-164) and `std::merge`.

    dim = last - first;  cutoff = 16;
    for (lo = first; lo < last; lo += cutoff) {
      hi = lo + cutoff;  if (last < hi) hi = last;
      futil::insertion_sort(lo, hi, comp);
    }
    for (sz = cutoff; sz < dim; sz *= 2) {
      for (lo = first; lo < last - sz; lo += 2*sz) {
        mid = lo + sz;  hi = lo + 2*sz;  if (last < hi) hi = last;
        std::merge(lo, mid, mid, hi, aux + (lo - first), comp);
      }
      std::copy(aux, aux + dim, first);
    }
-/

/-- `std::merge` on value sequences: at each step the element of the second
range is taken iff it is `comp`-less than the current element of the first
(equal elements come from the first range).  Fueled; fuel
`xs.length + ys.length` (as passed by `mergeLists`) covers every step. -/
def mergeListsF (comp : α → α → Bool) : Nat → List α → List α → List α
  | 0, xs, ys => xs ++ ys
  | _ + 1, [], ys => ys
  | _ + 1, x :: xs, [] => x :: xs
  | fuel + 1, x :: xs, y :: ys =>
    if comp y x then y :: mergeListsF comp fuel (x :: xs) ys
    else x :: mergeListsF comp fuel xs (y :: ys)

/-- `std::merge` of two value sequences. -/
def mergeLists (comp : α → α → Bool) (xs ys : List α) : List α :=
  mergeListsF comp (xs.length + ys.length) xs ys

/-- First loop of `merge_sort`: insertion sort on each cutoff-sized run. -/
def cutRunsF (last cutoff : Nat) (comp : α → α → Bool) : Nat → Nat → List α → List α
  | 0, _, l => l
  | fuel + 1, lo, l =>
    if lo < last then
      cutRunsF last cutoff comp fuel (lo + cutoff)
        (insertion_sort lo (if last < lo + cutoff then last else lo + cutoff) comp l)
    else l

/-- Inner loop of `merge_sort`'s merging pass at run size `sz`: merges pairs
of adjacent runs of the main sequence `l` into the auxiliary buffer `aux`
at offset `lo - first`, and returns the new auxiliary buffer. -/
def mergePassF (first last sz : Nat) (comp : α → α → Bool) :
    Nat → Nat → List α → List α → List α
  | 0, _, _, aux => aux
  | fuel + 1, lo, l, aux =>
    if lo < last - sz then
      mergePassF first last sz comp fuel (lo + 2 * sz) l
        (writeSeg aux (lo - first)
          (mergeLists comp (seg l lo (lo + sz))
            (seg l (lo + sz) (if last < lo + 2 * sz then last else lo + 2 * sz))))
    else aux

/-- Outer loop of `merge_sort`: doubles the run size, and after each pass
copies `aux[0, dim)` back over `[first, last)` (`std::copy`). -/
def mergeLoopF (first last : Nat) (comp : α → α → Bool) :
    Nat → Nat → List α → List α → List α
  | 0, _, l, _ => l
  | fuel + 1, sz, l, aux =>
    if sz < last - first then
      let aux2 := mergePassF first last sz comp (last + 1) first l aux
      mergeLoopF first last comp fuel (2 * sz)
        (writeSeg l first (aux2.take (last - first))) aux2
    else l

/-- `futil::merge_sort(first, last, aux, comp)`: returns the final contents
of the underlying sequence of the range (the auxiliary storage is scratch). -/
def merge_sort (first last : Nat) (comp : α → α → Bool) (l aux : List α) : List α :=
  mergeLoopF first last comp (last - first + 1) 16
    (cutRunsF last 16 comp (last - first + 1) first l) aux

/-- Strict-`<` comparator on `Nat` (the `<` of the spec's scenarios). -/
def natLt (a b : Nat) : Bool := decide (a < b)

/-- Key-only comparator on labelled pairs: orders by first component. -/
def pairLt (a b : Nat × Nat) : Bool := decide (a.1 < b.1)

/-- The 40-element reverse-sorted sequence `[40, 39, …, 1]` of the spec's
merge-sort scenario. -/
def rev40 : List Nat := (List.range 40).map (fun i => 40 - i)

/-- The 40-element ascending sequence `[1, 2, …, 40]`. -/
def asc40 : List Nat := (List.range 40).map (fun i => i + 1)

/-- A 40-element labelled input with duplicate keys, reverse-sorted by key:
`(key, label) = ((40 - i) / 2, i)` for `i = 0, …, 39`. -/
def keyed40 : List (Nat × Nat) := (List.range 40).map (fun i => ((40 - i) / 2, i))

/-!  ## Theorems -/

/-- Asymmetry, derivable for any strict weak ordering. -/
theorem SWO.asymm {comp : α → α → Bool} (h : SWO comp) {a b : α}
    (hab : comp a b = true) : comp b a = false := by
  by_contra hba
  have hba' : comp b a = true := by
    cases hcb : comp b a with
    | false => exact absurd hcb hba
    | true => rfl
  have := h.lt_trans hab hba'
  simp [h.irrefl] at this

/-- `<` on `Nat` is a strict weak ordering. -/
theorem swo_natLt : SWO natLt where
  irrefl a := by simp [natLt]
  lt_trans := by intro a b c h1 h2; simp only [natLt, decide_eq_true_eq] at *; omega
  ge_trans := by intro a b c h1 h2; simp only [natLt, decide_eq_false_iff_not] at *; omega

/-- The key-only comparator on labelled pairs is a strict weak ordering. -/
theorem swo_pairLt : SWO pairLt where
  irrefl a := by simp [pairLt]
  lt_trans := by intro a b c h1 h2; simp only [pairLt, decide_eq_true_eq] at *; omega
  ge_trans := by intro a b c h1 h2; simp only [pairLt, decide_eq_false_iff_not] at *; omega

/-!  ### Basic lemmas about the embedding primitives -/

theorem idx_eq_getElem {l : List α} {p : Nat} (h : p < l.length) : idx l p = l[p] := by
  simp [idx, List.getElem?_eq_getElem h]

theorem idx_congr {l r : List α} {p : Nat} (h : r[p]? = l[p]?) : idx r p = idx l p := by
  simp [idx, h]

theorem length_swap (l : List α) (i j : Nat) : (swap l i j).length = l.length := by
  simp [swap]

theorem getElem?_swap_ne {l : List α} {i j p : Nat} (hi : p ≠ i) (hj : p ≠ j) :
    (swap l i j)[p]? = l[p]? := by
  rw [swap, List.getElem?_set_ne (Ne.symm hj), List.getElem?_set_ne (Ne.symm hi)]

theorem idx_swap_ne {l : List α} {i j p : Nat} (hi : p ≠ i) (hj : p ≠ j) :
    idx (swap l i j) p = idx l p := idx_congr (getElem?_swap_ne hi hj)

theorem idx_swap_fst {l : List α} {i j : Nat} (hi : i < l.length) (hj : j < l.length) :
    idx (swap l i j) i = idx l j := by
  by_cases h : i = j
  · subst h
    rw [swap, idx, List.getElem?_set_self (by simpa using hi)]
    simp [idx_eq_getElem hi, idx]
  · rw [swap, idx, List.getElem?_set_ne (fun hh => h hh.symm),
      List.getElem?_set_self hi]
    simp [idx]

theorem idx_swap_snd {l : List α} {i j : Nat} (hi : i < l.length) (hj : j < l.length) :
    idx (swap l i j) j = idx l i := by
  rw [swap, idx, List.getElem?_set_self (by simpa using hj)]
  simp [idx]

theorem swap_self_perm (l : List α) (i : Nat) : List.Perm (swap l i i) l := by
  have : swap l i i = l.set i (idx l i) := by rw [swap, List.set_set]
  rw [this]
  by_cases hi : i < l.length
  · rw [idx_eq_getElem hi]
    apply List.Perm.of_eq
    apply List.ext_getElem?
    intro n
    by_cases hn : n = i
    · subst hn; rw [List.getElem?_set_self hi, List.getElem?_eq_getElem hi]
    · rw [List.getElem?_set_ne (fun hh => hn hh.symm)]
  · rw [List.set_eq_of_length_le (by omega)]

theorem swap_comm (l : List α) (i j : Nat) (h : i ≠ j) : swap l i j = swap l j i := by
  rw [swap, swap, List.set_comm _ _ _ h]

theorem swap_perm_lt : ∀ (l : List α) (i j : Nat), i < j → j < l.length →
    List.Perm (swap l i j) l := by
  intro l i
  induction i generalizing l with
  | zero =>
    intro j hij hj
    match l, j, hij with
    | x :: t, m + 1, _ =>
      have hm : m < t.length := by simpa using hj
      have hswap : swap (x :: t) 0 (m + 1) = idx t m :: t.set m x := by
        rw [swap]
        have h1 : idx (x :: t) (m + 1) = idx t m := by simp [idx]
        have h2 : idx (x :: t) 0 = x := by simp [idx]
        rw [h1, h2]
        rfl
      rw [hswap, idx_eq_getElem hm]
      have hset : t.set m x = t.take m ++ x :: t.drop (m + 1) := by
        rw [List.set_eq_take_append_cons_drop, if_pos hm]
      have ht : t = t.take m ++ t[m] :: t.drop (m + 1) := by
        conv_lhs => rw [← List.take_append_drop m t, ← List.getElem_cons_drop t m hm]
      rw [hset]
      refine List.Perm.trans (List.Perm.cons _ List.perm_middle) ?_
      refine List.Perm.trans (List.Perm.swap _ _ _) ?_
      refine List.Perm.trans (List.Perm.cons _ List.perm_middle.symm) ?_
      exact List.Perm.of_eq (congrArg (List.cons x) ht.symm)
  | succ i ih =>
    intro j hij hj
    match l, j, hij with
    | x :: t, m + 1, _ =>
      have hm : m < t.length := by simpa using hj
      have hstep : swap (x :: t) (i + 1) (m + 1) = x :: swap t i m := by
        rw [swap, swap]
        have h1 : idx (x :: t) (m + 1) = idx t m := by simp [idx]
        have h2 : idx (x :: t) (i + 1) = idx t i := by simp [idx]
        rw [h1, h2]
        rfl
      rw [hstep]
      exact List.Perm.cons _ (ih t m (by omega) hm)

theorem swap_perm {l : List α} {i j : Nat} (hi : i < l.length) (hj : j < l.length) :
    List.Perm (swap l i j) l := by
  rcases Nat.lt_trichotomy i j with h | h | h
  · exact swap_perm_lt l i j h hj
  · subst h; exact swap_self_perm l i
  · rw [swap_comm l i j (by omega)]
    exact swap_perm_lt l j i h hi

/-!  ### Lemmas about `writeSeg` and `seg` -/

theorem length_writeSeg : ∀ (xs : List α) (l : List α) (pos : Nat),
    (writeSeg l pos xs).length = l.length := by
  intro xs
  induction xs with
  | nil => intro l pos; rfl
  | cons x xs ih => intro l pos; rw [writeSeg, ih, List.length_set]

theorem getElem?_writeSeg_lt : ∀ (xs : List α) (l : List α) (pos p : Nat), p < pos →
    (writeSeg l pos xs)[p]? = l[p]? := by
  intro xs
  induction xs with
  | nil => intro l pos p _; rfl
  | cons x xs ih =>
    intro l pos p hp
    rw [writeSeg, ih _ _ _ (by omega), List.getElem?_set_ne (by omega)]

theorem getElem?_writeSeg_ge : ∀ (xs : List α) (l : List α) (pos p : Nat),
    pos + xs.length ≤ p → (writeSeg l pos xs)[p]? = l[p]? := by
  intro xs
  induction xs with
  | nil => intro l pos p _; rfl
  | cons x xs ih =>
    intro l pos p hp
    rw [List.length_cons] at hp
    rw [writeSeg, ih _ _ _ (by omega), List.getElem?_set_ne (by omega)]

theorem writeSeg_eq_append : ∀ (xs : List α) (l : List α) (pos : Nat),
    pos + xs.length ≤ l.length →
    writeSeg l pos xs = l.take pos ++ xs ++ l.drop (pos + xs.length) := by
  intro xs
  induction xs with
  | nil =>
    intro l pos h
    simp only [writeSeg, List.length_nil, Nat.add_zero, List.append_nil]
    exact (List.take_append_drop pos l).symm
  | cons x xs ih =>
    intro l pos h
    rw [List.length_cons] at h
    have hpos : pos < l.length := by omega
    rw [writeSeg, ih _ _ (by rw [List.length_set]; omega)]
    have hset : l.set pos x = l.take pos ++ x :: l.drop (pos + 1) := by
      rw [List.set_eq_take_append_cons_drop, if_pos hpos]
    have htake : (l.set pos x).take (pos + 1) = l.take pos ++ [x] := by
      rw [hset]
      have hlen : (l.take pos).length = pos := by
        rw [List.length_take]; omega
      rw [show pos + 1 = (l.take pos).length + 1 by rw [hlen]]
      rw [List.take_append]
      rfl
    have hdrop : (l.set pos x).drop (pos + 1 + xs.length) = l.drop (pos + 1 + xs.length) :=
      List.drop_set_of_lt _ _ (by omega)
    rw [htake, hdrop]
    simp only [List.append_assoc, List.cons_append, List.nil_append, List.length_cons]
    rw [show pos + 1 + xs.length = pos + (xs.length + 1) by omega]

theorem length_seg (l : List α) {a b : Nat} (hb : b ≤ l.length) :
    (seg l a b).length = b - a := by
  rw [seg, List.length_drop, List.length_take]
  omega

theorem getElem?_seg (l : List α) (a b n : Nat) :
    (seg l a b)[n]? = if a + n < b then l[a + n]? else none := by
  rw [seg, List.getElem?_drop, List.getElem?_take]

theorem idx_seg (l : List α) {a b i : Nat} (hi : i < b - a) :
    idx (seg l a b) i = idx l (a + i) := by
  rw [idx, idx, getElem?_seg, if_pos (by omega)]

theorem seg_zero_length (l : List α) : seg l 0 l.length = l := by
  rw [seg, List.take_length, List.drop_zero]

theorem seg_append (l : List α) {a m b : Nat} (h1 : a ≤ m) (h2 : m ≤ b)
    (hb : b ≤ l.length) : seg l a m ++ seg l m b = seg l a b := by
  apply List.ext_getElem?
  intro n
  rw [List.getElem?_append, length_seg l (by omega), getElem?_seg, getElem?_seg,
    getElem?_seg]
  by_cases hn : n < m - a
  · rw [if_pos hn, if_pos (by omega : a + n < m), if_pos (by omega : a + n < b)]
  · rw [if_neg hn, show m + (n - (m - a)) = a + n by omega]

theorem take_eq_of_frame {l r : List α} (first : Nat)
    (hf : ∀ p, p < first → r[p]? = l[p]?) : r.take first = l.take first := by
  apply List.ext_getElem?
  intro n
  rw [List.getElem?_take, List.getElem?_take]
  by_cases hn : n < first
  · rw [if_pos hn, if_pos hn, hf n hn]
  · rw [if_neg hn, if_neg hn]

theorem drop_eq_of_frame {l r : List α} (last : Nat)
    (hf : ∀ p, last ≤ p → r[p]? = l[p]?) : r.drop last = l.drop last := by
  apply List.ext_getElem?
  intro n
  rw [List.getElem?_drop, List.getElem?_drop, hf _ (by omega)]

theorem eq_take_append_seg_append_drop (l : List α) {first last : Nat}
    (h1 : first ≤ last) :
    l = l.take first ++ seg l first last ++ l.drop last := by
  conv_lhs => rw [← List.take_append_drop last l]
  rw [seg]
  congr 1
  conv_lhs => rw [← List.take_append_drop first (l.take last)]
  rw [List.take_take, Nat.min_def, if_pos h1]

theorem seg_perm_of_perm_frame {l r : List α} {first last : Nat} (h1 : first ≤ last)
    (hp : List.Perm r l) (hf : ∀ p, p < first ∨ last ≤ p → r[p]? = l[p]?) :
    List.Perm (seg r first last) (seg l first last) := by
  have ht : r.take first = l.take first :=
    take_eq_of_frame first (fun p hfp => hf p (Or.inl hfp))
  have hd : r.drop last = l.drop last :=
    drop_eq_of_frame last (fun p hfp => hf p (Or.inr hfp))
  have hr := eq_take_append_seg_append_drop r h1
  have hl := eq_take_append_seg_append_drop l h1
  have hp2 := hp
  rw [hr, hl, ht, hd] at hp2
  rw [List.append_assoc, List.append_assoc, List.perm_append_left_iff] at hp2
  exact (List.perm_append_right_iff _).mp hp2

/-!  ### Correctness of `insertion_sort` -/

/-- The inner loop of `insertion_sort` permutes the list and touches only
positions in `[first, j]` (unconditionally in `comp`). -/
theorem insInner_basic (first : Nat) (comp : α → α → Bool) :
    ∀ (j : Nat) (l : List α), j < l.length →
      List.Perm (insInner first comp j l) l ∧
      (∀ p, p < first ∨ j < p → (insInner first comp j l)[p]? = l[p]?) := by
  intro j
  induction j with
  | zero => intro l _; exact ⟨List.Perm.refl _, fun p _ => rfl⟩
  | succ k ih =>
    intro l hj
    simp only [insInner]
    by_cases hb : k + 1 ≤ first
    · rw [if_pos hb]; exact ⟨List.Perm.refl _, fun p _ => rfl⟩
    · rw [if_neg hb]
      by_cases hc : comp (idx l (k + 1)) (idx l k) = true
      · rw [if_pos hc]
        obtain ⟨ihp, ihf⟩ := ih (swap l (k + 1) k) (by rw [length_swap]; omega)
        refine ⟨ihp.trans (swap_perm hj (by omega)), ?_⟩
        intro p hp
        rw [ihf p (by omega)]
        exact getElem?_swap_ne (by omega) (by omega)
      · rw [if_neg hc]; exact ⟨List.Perm.refl _, fun p _ => rfl⟩

/-- The inner loop of `insertion_sort` sifts the element at position `j`
down into the sorted prefix: if every adjacent pair of `[first, i]` except
possibly those at `j` and `j + 1` is ordered, the pair at `j + 1` is ordered,
and the element above the moving position is no less than the one below it,
then after the loop every adjacent pair of `[first, i]` is ordered. -/
theorem insInner_sift {comp : α → α → Bool} (hswo : SWO comp) (first i : Nat) :
    ∀ (j : Nat) (l : List α), i < l.length → first ≤ j → j ≤ i →
      (∀ p, first + 1 ≤ p → p ≤ i → p ≠ j → p ≠ j + 1 →
        comp (idx l p) (idx l (p - 1)) = false) →
      (j + 1 ≤ i → comp (idx l (j + 1)) (idx l j) = false) →
      (j + 1 ≤ i → first + 1 ≤ j → comp (idx l (j + 1)) (idx l (j - 1)) = false) →
      ∀ p, first + 1 ≤ p → p ≤ i →
        comp (idx (insInner first comp j l) p)
          (idx (insInner first comp j l) (p - 1)) = false := by
  intro j
  induction j with
  | zero =>
    intro l hil hfj hji H1 H2 H3 p hp1 hp2
    simp only [insInner]
    by_cases hp : p = 1
    · subst hp; exact H2 (by omega)
    · exact H1 p hp1 hp2 (by omega) (by omega)
  | succ k ih =>
    intro l hil hfj hji H1 H2 H3 p hp1 hp2
    simp only [insInner]
    by_cases hb : k + 1 ≤ first
    · rw [if_pos hb]
      by_cases hp : p = k + 2
      · subst hp; exact H2 (by omega)
      · exact H1 p hp1 hp2 (by omega) (by omega)
    · rw [if_neg hb]
      by_cases hc : comp (idx l (k + 1)) (idx l k) = true
      · rw [if_pos hc]
        refine ih (swap l (k + 1) k) (by rw [length_swap]; omega) (by omega) (by omega)
          ?_ ?_ ?_ p hp1 hp2
        · intro q hq1 hq2 hq3 hq4
          by_cases hq : q = k + 2
          · subst hq
            rw [idx_swap_ne (by omega) (by omega),
              show k + 2 - 1 = k + 1 by omega, idx_swap_fst (by omega) (by omega)]
            exact H3 (by omega) (by omega)
          · rw [idx_swap_ne (by omega) (by omega), idx_swap_ne (by omega) (by omega)]
            exact H1 q hq1 hq2 (by omega) hq
        · intro hki
          rw [idx_swap_fst (by omega) (by omega)]
          rw [show (k : Nat) = k + 1 - 1 from rfl, idx_swap_snd (by omega) (by omega)]
          exact hswo.asymm hc
        · intro hki hfk
          rw [idx_swap_fst (by omega) (by omega), idx_swap_ne (by omega) (by omega)]
          exact H1 k (by omega) (by omega) (by omega) (by omega)
      · rw [if_neg hc]
        rw [Bool.not_eq_true] at hc
        by_cases hp : p = k + 1
        · subst hp; exact hc
        · by_cases hp' : p = k + 2
          · subst hp'; exact H2 (by omega)
          · exact H1 p hp1 hp2 hp hp'

/-- The outer loop of `insertion_sort`: given that all adjacent pairs below
the current position `i` are ordered, it orders all adjacent pairs of
`[first, last)`, permutes the list, and touches nothing outside
`[first, last)`. -/
theorem insOuterF_spec {comp : α → α → Bool} (hswo : SWO comp) (first last : Nat) :
    ∀ (fuel i : Nat) (l : List α), last ≤ l.length → first ≤ i → last - i ≤ fuel →
      (∀ p, first + 1 ≤ p → p < i → comp (idx l p) (idx l (p - 1)) = false) →
      (∀ p, first + 1 ≤ p → p < last →
          comp (idx (insOuterF first last comp fuel i l) p)
            (idx (insOuterF first last comp fuel i l) (p - 1)) = false) ∧
        List.Perm (insOuterF first last comp fuel i l) l ∧
        (∀ p, p < first ∨ last ≤ p →
          (insOuterF first last comp fuel i l)[p]? = l[p]?) := by
  intro fuel
  induction fuel with
  | zero =>
    intro i l hlen hfi hfuel hpairs
    exact ⟨fun p h1 h2 => hpairs p h1 (by omega), List.Perm.refl _, fun p _ => rfl⟩
  | succ fuel ih =>
    intro i l hlen hfi hfuel hpairs
    simp only [insOuterF]
    by_cases hi : i < last
    · rw [if_pos hi]
      have hil : i < l.length := by omega
      have hsift := insInner_sift hswo first i i l hil hfi (le_refl i)
        (fun p h1 h2 h3 _ => hpairs p h1 (by omega))
        (fun h => absurd h (by omega)) (fun h _ => absurd h (by omega))
      obtain ⟨hbp, hbf⟩ := insInner_basic first comp i l hil
      obtain ⟨ihpairs, ihperm, ihframe⟩ := ih (i + 1) (insInner first comp i l)
        (by rw [hbp.length_eq]; omega) (by omega) (by omega)
        (fun p h1 h2 => hsift p h1 (by omega))
      refine ⟨ihpairs, ihperm.trans hbp, ?_⟩
      intro p hp
      rw [ihframe p hp, hbf p (by omega)]
    · rw [if_neg hi]
      exact ⟨fun p h1 h2 => hpairs p h1 (by omega), List.Perm.refl _, fun p _ => rfl⟩

/-- `insertion_sort` orders all adjacent pairs of `[first, last)`, permutes
the underlying sequence, and touches nothing outside `[first, last)`. -/
theorem insertion_sort_spec {comp : α → α → Bool} (hswo : SWO comp)
    (first last : Nat) (l : List α) (hlen : last ≤ l.length) :
    (∀ p, first + 1 ≤ p → p < last →
        comp (idx (insertion_sort first last comp l) p)
          (idx (insertion_sort first last comp l) (p - 1)) = false) ∧
      List.Perm (insertion_sort first last comp l) l ∧
      (∀ p, p < first ∨ last ≤ p →
        (insertion_sort first last comp l)[p]? = l[p]?) := by
  exact insOuterF_spec hswo first last (last - first) first l hlen (le_refl first)
    (by omega) (fun p h1 h2 => absurd h2 (by omega))

/-- Adjacent orderedness upgrades to full non-decreasingness for a strict
weak ordering (using transitivity of the complement). -/
theorem sortedOn_of_pairs {comp : α → α → Bool} (hswo : SWO comp) {l : List α}
    {first last : Nat}
    (hp : ∀ p, first + 1 ≤ p → p < last → comp (idx l p) (idx l (p - 1)) = false) :
    sortedOn comp l first last := by
  intro p q h1 h2 h3
  induction q with
  | zero =>
    have hp0 : p = 0 := by omega
    subst hp0; exact hswo.irrefl _
  | succ q ihq =>
    by_cases hpq : p = q + 1
    · subst hpq; exact hswo.irrefl _
    · exact hswo.ge_trans (ihq (by omega) (by omega)) (hp (q + 1) (by omega) h3)

/-- C3: for every finite input range and every valid strict weak ordering
`comp`, after `insertion_sort(first, last, comp)` the range `[first, last)`
is non-decreasing according to `comp` and is a permutation of the original
multiset of the range. -/
theorem insertion_sort_correct {comp : α → α → Bool} (hswo : SWO comp)
    (first last : Nat) (l : List α) (h1 : first ≤ last) (h2 : last ≤ l.length) :
    sortedOn comp (insertion_sort first last comp l) first last ∧
      List.Perm (seg (insertion_sort first last comp l) first last)
        (seg l first last) := by
  obtain ⟨hp, hperm, hframe⟩ := insertion_sort_spec hswo first last l h2
  exact ⟨sortedOn_of_pairs hswo hp, seg_perm_of_perm_frame h1 hperm hframe⟩

/-- Witness for C3 at the spec's concrete scenario: insertion sort on
`[5,3,4,1,2]` with `<`, which indeed yields `[1,2,3,4,5]`. -/
theorem insertion_sort_correct_witness :
    (SWO natLt ∧ 0 ≤ 5 ∧ 5 ≤ ([5, 3, 4, 1, 2] : List Nat).length) ∧
      (sortedOn natLt (insertion_sort 0 5 natLt [5, 3, 4, 1, 2]) 0 5 ∧
        List.Perm (seg (insertion_sort 0 5 natLt [5, 3, 4, 1, 2]) 0 5)
          (seg [5, 3, 4, 1, 2] 0 5)) ∧
      insertion_sort 0 5 natLt [5, 3, 4, 1, 2] = [1, 2, 3, 4, 5] :=
  ⟨⟨swo_natLt, by omega, by decide⟩,
    insertion_sort_correct swo_natLt 0 5 [5, 3, 4, 1, 2] (by omega) (by decide),
    by decide⟩

/-!  ### Correctness of `h_sort` and `shell_sort` -/

/-- The inner loop of `h_sort` permutes the list and touches only positions
in `[first, j]` (unconditionally in `comp` and `h`). -/
theorem hInnerF_basic (first h : Nat) (comp : α → α → Bool) :
    ∀ (fuel j : Nat) (l : List α), j < l.length →
      List.Perm (hInnerF first h comp fuel j l) l ∧
      (∀ p, p < first ∨ j < p → (hInnerF first h comp fuel j l)[p]? = l[p]?) := by
  intro fuel
  induction fuel with
  | zero => intro j l _; exact ⟨List.Perm.refl _, fun p _ => rfl⟩
  | succ fuel ih =>
    intro j l hj
    simp only [hInnerF]
    by_cases hb : first + h ≤ j
    · rw [if_pos hb]
      by_cases hc : comp (idx l j) (idx l (j - h)) = true
      · rw [if_pos hc]
        obtain ⟨ihp, ihf⟩ := ih (j - h) (swap l j (j - h)) (by rw [length_swap]; omega)
        refine ⟨ihp.trans (swap_perm hj (by omega)), ?_⟩
        intro p hp
        rw [ihf p (by omega)]
        exact getElem?_swap_ne (by omega) (by omega)
      · rw [if_neg hc]
        obtain ⟨ihp, ihf⟩ := ih (j - h) l (by omega)
        exact ⟨ihp, fun p hp => ihf p (by omega)⟩
    · rw [if_neg hb]
      exact ⟨List.Perm.refl _, fun p _ => rfl⟩

/-- The inner loop of `h_sort` does nothing when every stride-adjacent pair
up to `j` is already ordered (the loop has no break, but makes no swap). -/
theorem hInnerF_noswap (first h : Nat) (comp : α → α → Bool) :
    ∀ (fuel j : Nat) (l : List α),
      (∀ p, first + h ≤ p → p ≤ j → comp (idx l p) (idx l (p - h)) = false) →
      hInnerF first h comp fuel j l = l := by
  intro fuel
  induction fuel with
  | zero => intro j l _; rfl
  | succ fuel ih =>
    intro j l hp
    simp only [hInnerF]
    by_cases hb : first + h ≤ j
    · rw [if_pos hb]
      have hc : comp (idx l j) (idx l (j - h)) = false := hp j hb (le_refl j)
      have hif : (if comp (idx l j) (idx l (j - h)) = true then swap l j (j - h) else l)
          = l := by rw [hc]; simp
      rw [hif]
      exact ih (j - h) l (fun p h1 h2 => hp p h1 (by omega))
    · rw [if_neg hb]

/-- The inner loop of `h_sort` sifts the element at position `j` down its
`h`-stride class: with the invariant that all stride-adjacent pairs of
`[first, i]` except possibly those at `j` and `j + h` are ordered, the pair
at `j + h` is ordered, and the element at `j + h` is no less than the one at
`j - h`, after the loop every stride-adjacent pair of `[first, i]` is
ordered. -/
theorem hInnerF_sift {comp : α → α → Bool} (hswo : SWO comp) (first h i : Nat)
    (hh : 0 < h) :
    ∀ (fuel j : Nat) (l : List α), j + 1 ≤ fuel → i < l.length → first ≤ j → j ≤ i →
      (∀ p, first + h ≤ p → p ≤ i → p ≠ j → p ≠ j + h →
        comp (idx l p) (idx l (p - h)) = false) →
      (j + h ≤ i → comp (idx l (j + h)) (idx l j) = false) →
      (j + h ≤ i → first + h ≤ j → comp (idx l (j + h)) (idx l (j - h)) = false) →
      ∀ p, first + h ≤ p → p ≤ i →
        comp (idx (hInnerF first h comp fuel j l) p)
          (idx (hInnerF first h comp fuel j l) (p - h)) = false := by
  intro fuel
  induction fuel with
  | zero => intro j l hfuel; omega
  | succ fuel ih =>
    intro j l hfuel hil hfj hji H1 H2 H3 p hp1 hp2
    simp only [hInnerF]
    by_cases hb : first + h ≤ j
    · rw [if_pos hb]
      by_cases hc : comp (idx l j) (idx l (j - h)) = true
      · rw [if_pos hc]
        refine ih (j - h) (swap l j (j - h)) (by omega) (by rw [length_swap]; omega)
          (by omega) (by omega) ?_ ?_ ?_ p hp1 hp2
        · intro q hq1 hq2 hq3 hq4
          rw [show j - h + h = j by omega] at hq4
          by_cases hq : q = j + h
          · subst hq
            rw [idx_swap_ne (by omega) (by omega),
              show j + h - h = j by omega, idx_swap_fst (by omega) (by omega)]
            exact H3 (by omega) hb
          · rw [idx_swap_ne (by omega) (by omega), idx_swap_ne (by omega) (by omega)]
            exact H1 q hq1 hq2 hq4 hq
        · intro hki
          rw [show j - h + h = j by omega] at hki ⊢
          rw [idx_swap_fst (by omega) (by omega), idx_swap_snd (by omega) (by omega)]
          exact hswo.asymm hc
        · intro hki hfk
          rw [show j - h + h = j by omega] at hki ⊢
          rw [idx_swap_fst (by omega) (by omega), idx_swap_ne (by omega) (by omega)]
          exact H1 (j - h) hfk (by omega) (by omega) (by omega)
      · rw [if_neg hc]
        rw [Bool.not_eq_true] at hc
        rw [hInnerF_noswap first h comp fuel (j - h) l
          (fun q h1 h2 => H1 q h1 (by omega) (by omega) (by omega))]
        by_cases hp : p = j
        · subst hp; exact hc
        · by_cases hp' : p = j + h
          · subst hp'
            rw [show j + h - h = j by omega]
            exact H2 (by omega)
          · exact H1 p hp1 hp2 hp hp'
    · rw [if_neg hb]
      by_cases hp : p = j
      · subst hp; omega
      · by_cases hp' : p = j + h
        · subst hp'
          rw [show j + h - h = j by omega]
          exact H2 (by omega)
        · exact H1 p hp1 hp2 hp hp'

/-- The outer loop of `h_sort` permutes the list and touches only
`[first, last)` (unconditionally in `comp` and `h`). -/
theorem hOuterF_basic (first last h : Nat) (comp : α → α → Bool) :
    ∀ (fuel i : Nat) (l : List α), last ≤ l.length → first ≤ i →
      List.Perm (hOuterF first last h comp fuel i l) l ∧
      (∀ p, p < first ∨ last ≤ p → (hOuterF first last h comp fuel i l)[p]? = l[p]?) := by
  intro fuel
  induction fuel with
  | zero => intro i l _ _; exact ⟨List.Perm.refl _, fun p _ => rfl⟩
  | succ fuel ih =>
    intro i l hlen hfi
    simp only [hOuterF]
    by_cases hi : i < last
    · rw [if_pos hi]
      obtain ⟨hbp, hbf⟩ := hInnerF_basic first h comp (i + 1) i l (by omega)
      obtain ⟨ihp, ihf⟩ := ih (i + 1) (hInnerF first h comp (i + 1) i l)
        (by rw [hbp.length_eq]; omega) (by omega)
      refine ⟨ihp.trans hbp, ?_⟩
      intro p hp
      rw [ihf p hp, hbf p (by omega)]
    · rw [if_neg hi]
      exact ⟨List.Perm.refl _, fun p _ => rfl⟩

/-- The outer loop of `h_sort`: extends stride-adjacent orderedness from
`[first, i)` to all of `[first, last)`. -/
theorem hOuterF_spec {comp : α → α → Bool} (hswo : SWO comp) (first last h : Nat)
    (hh : 0 < h) :
    ∀ (fuel i : Nat) (l : List α), last ≤ l.length → first + h ≤ i → last - i ≤ fuel →
      (∀ p, first + h ≤ p → p < i → comp (idx l p) (idx l (p - h)) = false) →
      ∀ p, first + h ≤ p → p < last →
        comp (idx (hOuterF first last h comp fuel i l) p)
          (idx (hOuterF first last h comp fuel i l) (p - h)) = false := by
  intro fuel
  induction fuel with
  | zero =>
    intro i l hlen hfi hfuel hpairs p hp1 hp2
    exact hpairs p hp1 (by omega)
  | succ fuel ih =>
    intro i l hlen hfi hfuel hpairs p hp1 hp2
    simp only [hOuterF]
    by_cases hi : i < last
    · rw [if_pos hi]
      have hsift := hInnerF_sift hswo first h i hh (i + 1) i l (by omega) (by omega)
        (by omega) (le_refl i)
        (fun q h1 h2 h3 _ => hpairs q h1 (by omega))
        (fun hgt => absurd hgt (by omega)) (fun hgt _ => absurd hgt (by omega))
      obtain ⟨hbp, _⟩ := hInnerF_basic first h comp (i + 1) i l (by omega)
      exact ih (i + 1) (hInnerF first h comp (i + 1) i l)
        (by rw [hbp.length_eq]; omega) (by omega) (by omega)
        (fun q h1 h2 => hsift q h1 (by omega)) p hp1 hp2
    · rw [if_neg hi]
      exact hpairs p hp1 (by omega)

/-- `h_sort` permutes the list and touches only `[first, last)`
(unconditionally in `comp` and `h`). -/
theorem h_sort_basic (first last h : Nat) (comp : α → α → Bool) (l : List α)
    (hlen : last ≤ l.length) :
    List.Perm (h_sort first last h comp l) l ∧
      (∀ p, p < first ∨ last ≤ p → (h_sort first last h comp l)[p]? = l[p]?) :=
  hOuterF_basic first last h comp (last - (first + h)) (first + h) l hlen (by omega)

/-- One call to `h_sort` with gap `h > 0` fully orders every stride-adjacent
pair of `[first, last)`. -/
theorem h_sort_pairs {comp : α → α → Bool} (hswo : SWO comp) (first last h : Nat)
    (hh : 0 < h) (l : List α) (hlen : last ≤ l.length) :
    ∀ p, first + h ≤ p → p < last →
      comp (idx (h_sort first last h comp l) p)
        (idx (h_sort first last h comp l) (p - h)) = false :=
  hOuterF_spec hswo first last h hh (last - (first + h)) (first + h) l hlen
    (le_refl _) (by omega) (fun p h1 h2 => absurd h2 (by omega))

/-- C10: a single call to `h_sort` with gap `0 < h < last - first` and a
valid strict weak ordering leaves the range `[first, last)` a permutation of
the original that is fully `h`-ordered: no element `comp`-precedes the
element `h` positions before it (the inner loop scans each stride class all
the way back, so one pass per gap already orders every stride class). -/
theorem h_sort_correct {comp : α → α → Bool} (hswo : SWO comp)
    (first last h : Nat) (l : List α) (hh : 0 < h) (hhlt : h < last - first)
    (hlen : last ≤ l.length) :
    List.Perm (seg (h_sort first last h comp l) first last) (seg l first last) ∧
      ∀ p, first + h ≤ p → p < last →
        comp (idx (h_sort first last h comp l) p)
          (idx (h_sort first last h comp l) (p - h)) = false := by
  obtain ⟨hperm, hframe⟩ := h_sort_basic first last h comp l hlen
  exact ⟨seg_perm_of_perm_frame (by omega) hperm hframe,
    h_sort_pairs hswo first last h hh l hlen⟩

/-- Witness for C10: `h_sort` with gap 2 on `[4,3,2,1]`. -/
theorem h_sort_correct_witness :
    (SWO natLt ∧ 0 < 2 ∧ 2 < 4 - 0 ∧ 4 ≤ ([4, 3, 2, 1] : List Nat).length) ∧
      (List.Perm (seg (h_sort 0 4 2 natLt [4, 3, 2, 1]) 0 4)
          (seg [4, 3, 2, 1] 0 4) ∧
        ∀ p, 0 + 2 ≤ p → p < 4 →
          natLt (idx (h_sort 0 4 2 natLt [4, 3, 2, 1]) p)
            (idx (h_sort 0 4 2 natLt [4, 3, 2, 1]) (p - 2)) = false) :=
  ⟨⟨swo_natLt, by omega, by omega, by decide⟩,
    h_sort_correct swo_natLt 0 4 2 [4, 3, 2, 1] (by omega) (by omega) (by decide)⟩

/-!  ### The Knuth gap sequence -/

theorem kterm_pos (i : Nat) : 0 < kterm i := by
  cases i with
  | zero => simp [kterm]
  | succ i => simp only [kterm]; omega

theorem kterm_succ_div3 (i : Nat) : kterm (i + 1) / 3 = kterm i := by
  show (3 * kterm i + 1) / 3 = kterm i
  omega

/-- The `knuth_seq` loop starting from `kterm i` stops at the first term of
the Knuth sequence that reaches `n / 3`. -/
theorem knuth_seqAux_spec (n : Nat) :
    ∀ (fuel i : Nat), n / 3 ≤ kterm i + fuel →
      ∃ m, knuth_seqAux n fuel (kterm i) = kterm m ∧ i ≤ m ∧ n / 3 ≤ kterm m ∧
        ∀ j, i ≤ j → j < m → kterm j < n / 3 := by
  intro fuel
  induction fuel with
  | zero =>
    intro i hb
    exact ⟨i, rfl, le_refl i, by simpa using hb, fun j hj1 hj2 => by omega⟩
  | succ fuel ih =>
    intro i hb
    simp only [knuth_seqAux]
    by_cases hc : kterm i < n / 3
    · rw [if_pos hc]
      have hk1 : (3 * kterm i + 1) = kterm (i + 1) := rfl
      rw [hk1]
      obtain ⟨m, hm, him, hnm, hj⟩ := ih (i + 1)
        (by have hkp := kterm_pos i; have : kterm (i + 1) = 3 * kterm i + 1 := rfl; omega)
      refine ⟨m, hm, by omega, hnm, ?_⟩
      intro j hij hjm
      rcases Nat.eq_or_lt_of_le hij with rfl | hlt
      · exact hc
      · exact hj j (by omega) hjm
    · rw [if_neg hc]
      exact ⟨i, rfl, le_refl i, by omega, fun j hj1 hj2 => by omega⟩

/-- `knuth_seq n` is the first term of the Knuth sequence reaching `n / 3`:
all earlier terms are below `n / 3`. -/
theorem knuth_seq_spec (n : Nat) :
    ∃ m, knuth_seq n = kterm m ∧ n / 3 ≤ kterm m ∧
      ∀ j, j < m → kterm j < n / 3 := by
  obtain ⟨m, hm, _, hnm, hj⟩ := knuth_seqAux_spec n n 0
    (by have := Nat.div_le_self n 3; simp only [kterm]; omega)
  exact ⟨m, hm, hnm, fun j hjm => hj j (by omega) hjm⟩

/-- C2 (amended): for every `n > 1`, `knuth_seq n` returns the smallest term
of the sequence `k₀ = 1`, `k_{i+1} = 3·k_i + 1` that is at least `n / 3`
(every strictly earlier term of the increasing sequence is below `n / 3`). -/
theorem knuth_seq_smallest_ge_third (n : Nat) (hn : 1 < n) :
    ∃ m, knuth_seq n = kterm m ∧ n / 3 ≤ kterm m ∧
      ∀ j, j < m → kterm j < n / 3 :=
  knuth_seq_spec n

/-- Witness for the amended C2 at `n = 14`. -/
theorem knuth_seq_smallest_ge_third_witness :
    1 < 14 ∧ ∃ m, knuth_seq 14 = kterm m ∧ 14 / 3 ≤ kterm m ∧
      ∀ j, j < m → kterm j < 14 / 3 :=
  ⟨by omega, knuth_seq_smallest_ge_third 14 (by omega)⟩

/-!  ### Correctness of `shell_sort` -/

/-- The gap loop of `shell_sort` permutes the list and touches only
`[first, last)` (unconditionally in `comp`). -/
theorem shellF_basic (first last : Nat) (comp : α → α → Bool) :
    ∀ (fuel h : Nat) (l : List α), last ≤ l.length →
      List.Perm (shellF first last comp fuel h l) l ∧
      (∀ p, p < first ∨ last ≤ p → (shellF first last comp fuel h l)[p]? = l[p]?) := by
  intro fuel
  induction fuel with
  | zero => intro h l _; exact ⟨List.Perm.refl _, fun p _ => rfl⟩
  | succ fuel ih =>
    intro h l hlen
    simp only [shellF]
    by_cases hh : 0 < h
    · rw [if_pos hh]
      obtain ⟨hbp, hbf⟩ := h_sort_basic first last h comp l hlen
      obtain ⟨ihp, ihf⟩ := ih (h / 3) (h_sort first last h comp l)
        (by rw [hbp.length_eq]; omega)
      exact ⟨ihp.trans hbp, fun p hp => by rw [ihf p hp, hbf p hp]⟩
    · rw [if_neg hh]
      exact ⟨List.Perm.refl _, fun p _ => rfl⟩

/-- `shell_sort` permutes the list and touches only `[first, last)`. -/
theorem shell_sort_basic (first last : Nat) (comp : α → α → Bool) (l : List α)
    (hlen : last ≤ l.length) :
    List.Perm (shell_sort first last comp l) l ∧
      (∀ p, p < first ∨ last ≤ p → (shell_sort first last comp l)[p]? = l[p]?) :=
  shellF_basic first last comp _ _ l hlen

/-- Running the gap loop from any Knuth term eventually performs the pass
with gap `kterm 0 = 1`, which orders all adjacent pairs of the range. -/
theorem shellF_pairs {comp : α → α → Bool} (hswo : SWO comp) (first last : Nat) :
    ∀ (i fuel : Nat) (l : List α), kterm i + 1 ≤ fuel → last ≤ l.length →
      ∀ p, first + 1 ≤ p → p < last →
        comp (idx (shellF first last comp fuel (kterm i) l) p)
          (idx (shellF first last comp fuel (kterm i) l) (p - 1)) = false := by
  intro i
  induction i with
  | zero =>
    intro fuel l hfuel hlen p hp1 hp2
    simp only [show kterm 0 = 1 from rfl] at hfuel ⊢
    obtain ⟨f, rfl⟩ : ∃ f, fuel = f + 1 := ⟨fuel - 1, by omega⟩
    simp only [shellF, if_pos (by omega : (0 : Nat) < 1),
      show (1 : Nat) / 3 = 0 from rfl]
    obtain ⟨g, rfl⟩ : ∃ g, f = g + 1 := ⟨f - 1, by omega⟩
    simp only [shellF, Nat.lt_irrefl, if_false]
    exact h_sort_pairs hswo first last 1 (by omega) l hlen p hp1 hp2
  | succ i ih =>
    intro fuel l hfuel hlen p hp1 hp2
    obtain ⟨f, rfl⟩ : ∃ f, fuel = f + 1 := ⟨fuel - 1, by omega⟩
    simp only [shellF, if_pos (kterm_pos (i + 1)), kterm_succ_div3]
    have hk : kterm (i + 1) = 3 * kterm i + 1 := rfl
    have hkp := kterm_pos i
    exact ih f (h_sort first last (kterm (i + 1)) comp l) (by omega)
      (by rw [(h_sort_basic first last (kterm (i + 1)) comp l hlen).1.length_eq]; omega)
      p hp1 hp2

/-- C4: for every finite input range and every valid strict weak ordering
`comp`, after `shell_sort(first, last, comp)` the range `[first, last)` is
non-decreasing according to `comp` and is a permutation of the original
multiset of the range. -/
theorem shell_sort_correct {comp : α → α → Bool} (hswo : SWO comp)
    (first last : Nat) (l : List α) (h1 : first ≤ last) (h2 : last ≤ l.length) :
    sortedOn comp (shell_sort first last comp l) first last ∧
      List.Perm (seg (shell_sort first last comp l) first last)
        (seg l first last) := by
  obtain ⟨hperm, hframe⟩ := shell_sort_basic first last comp l h2
  obtain ⟨m, hm, _, _⟩ := knuth_seq_spec (last - first)
  have hpairs : ∀ p, first + 1 ≤ p → p < last →
      comp (idx (shell_sort first last comp l) p)
        (idx (shell_sort first last comp l) (p - 1)) = false := by
    intro p hp1 hp2
    simp only [shell_sort, hm]
    exact shellF_pairs hswo first last m (kterm m + 1) l (le_refl _) h2 p hp1 hp2
  exact ⟨sortedOn_of_pairs hswo hpairs, seg_perm_of_perm_frame h1 hperm hframe⟩

/-- Witness for C4 at the spec's concrete scenario: shell sort on
`[9,8,7,6,5,4,3,2,1]` with `<`, which indeed yields `[1,…,9]`. -/
theorem shell_sort_correct_witness :
    (SWO natLt ∧ 0 ≤ 9 ∧ 9 ≤ ([9, 8, 7, 6, 5, 4, 3, 2, 1] : List Nat).length) ∧
      (sortedOn natLt (shell_sort 0 9 natLt [9, 8, 7, 6, 5, 4, 3, 2, 1]) 0 9 ∧
        List.Perm (seg (shell_sort 0 9 natLt [9, 8, 7, 6, 5, 4, 3, 2, 1]) 0 9)
          (seg [9, 8, 7, 6, 5, 4, 3, 2, 1] 0 9)) ∧
      shell_sort 0 9 natLt [9, 8, 7, 6, 5, 4, 3, 2, 1] = [1, 2, 3, 4, 5, 6, 7, 8, 9] :=
  ⟨⟨swo_natLt, by omega, by decide⟩,
    shell_sort_correct swo_natLt 0 9 [9, 8, 7, 6, 5, 4, 3, 2, 1] (by omega) (by decide),
    by decide⟩

/-!  ### Frame lemmas: each sort touches only `[first, last)` -/

/-- The outer loop of `insertion_sort` permutes the list and touches only
`[first, last)` (unconditionally in `comp`). -/
theorem insOuterF_basic (first last : Nat) (comp : α → α → Bool) :
    ∀ (fuel i : Nat) (l : List α), last ≤ l.length →
      List.Perm (insOuterF first last comp fuel i l) l ∧
      (∀ p, p < first ∨ last ≤ p →
        (insOuterF first last comp fuel i l)[p]? = l[p]?) := by
  intro fuel
  induction fuel with
  | zero => intro i l _; exact ⟨List.Perm.refl _, fun p _ => rfl⟩
  | succ fuel ih =>
    intro i l hlen
    simp only [insOuterF]
    by_cases hi : i < last
    · rw [if_pos hi]
      obtain ⟨hbp, hbf⟩ := insInner_basic first comp i l (by omega)
      obtain ⟨ihp, ihf⟩ := ih (i + 1) (insInner first comp i l)
        (by rw [hbp.length_eq]; omega)
      refine ⟨ihp.trans hbp, ?_⟩
      intro p hp
      rw [ihf p hp, hbf p (by omega)]
    · rw [if_neg hi]
      exact ⟨List.Perm.refl _, fun p _ => rfl⟩

/-- `insertion_sort` permutes the list and touches only `[first, last)`
(unconditionally in `comp`). -/
theorem insertion_sort_basic (first last : Nat) (comp : α → α → Bool)
    (l : List α) (hlen : last ≤ l.length) :
    List.Perm (insertion_sort first last comp l) l ∧
      (∀ p, p < first ∨ last ≤ p → (insertion_sort first last comp l)[p]? = l[p]?) :=
  insOuterF_basic first last comp (last - first) first l hlen

/-- The run-cutting loop of `merge_sort` permutes the list and touches only
`[lo, last)`. -/
theorem cutRunsF_basic (last cutoff : Nat) (comp : α → α → Bool) :
    ∀ (fuel lo : Nat) (l : List α), last ≤ l.length →
      List.Perm (cutRunsF last cutoff comp fuel lo l) l ∧
      (∀ p, p < lo ∨ last ≤ p → (cutRunsF last cutoff comp fuel lo l)[p]? = l[p]?) := by
  intro fuel
  induction fuel with
  | zero => intro lo l _; exact ⟨List.Perm.refl _, fun p _ => rfl⟩
  | succ fuel ih =>
    intro lo l hlen
    simp only [cutRunsF]
    by_cases hlo : lo < last
    · rw [if_pos hlo]
      have hhile : (if last < lo + cutoff then last else lo + cutoff) ≤ last := by
        split <;> omega
      obtain ⟨hbp, hbf⟩ := insertion_sort_basic lo
        (if last < lo + cutoff then last else lo + cutoff) comp l (by omega)
      obtain ⟨ihp, ihf⟩ := ih (lo + cutoff)
        (insertion_sort lo (if last < lo + cutoff then last else lo + cutoff) comp l)
        (by rw [hbp.length_eq]; omega)
      refine ⟨ihp.trans hbp, ?_⟩
      intro p hp
      rw [ihf p (by omega), hbf p (by omega)]
    · rw [if_neg hlo]
      exact ⟨List.Perm.refl _, fun p _ => rfl⟩

/-- The merging loop of `merge_sort` touches only `[first, last)` of the
main sequence: each pass writes back exactly `aux[0, dim)` over
`[first, last)`. -/
theorem mergeLoopF_frame (first last : Nat) (comp : α → α → Bool) :
    ∀ (fuel sz : Nat) (l aux : List α), first ≤ last → last ≤ l.length →
      ∀ p, p < first ∨ last ≤ p →
        (mergeLoopF first last comp fuel sz l aux)[p]? = l[p]? := by
  intro fuel
  induction fuel with
  | zero => intro sz l aux _ _ p _; rfl
  | succ fuel ih =>
    intro sz l aux h1 hlen p hp
    simp only [mergeLoopF]
    by_cases hsz : sz < last - first
    · rw [if_pos hsz]
      have htk := Nat.min_le_left (last - first)
        (mergePassF first last sz comp (last + 1) first l aux).length
      rw [ih (2 * sz) _ _ h1 (by rw [length_writeSeg]; omega) p hp]
      rcases hp with hp | hp
      · exact getElem?_writeSeg_lt _ _ _ _ hp
      · refine getElem?_writeSeg_ge _ _ _ _ ?_
        rw [List.length_take]
        have := Nat.min_le_left (last - first)
          (mergePassF first last sz comp (last + 1) first l aux).length
        omega
    · rw [if_neg hsz]

/-- `merge_sort` touches only `[first, last)` of the main sequence. -/
theorem merge_sort_frame (comp : α → α → Bool) (first last : Nat)
    (l aux : List α) (h1 : first ≤ last) (hlen : last ≤ l.length) :
    ∀ p, p < first ∨ last ≤ p → (merge_sort first last comp l aux)[p]? = l[p]? := by
  intro p hp
  simp only [merge_sort]
  obtain ⟨hcp, hcf⟩ := cutRunsF_basic last 16 comp (last - first + 1) first l hlen
  rw [mergeLoopF_frame first last comp (last - first + 1) 16 _ aux h1
    (by rw [hcp.length_eq]; omega) p hp]
  exact hcf p hp

/-- C9: every element of the underlying sequence outside `[first, last)` is
unchanged by each of the three sorts (for `merge_sort`, the auxiliary buffer
is separate storage of capacity at least `last - first`). -/
theorem sorts_touch_only_range (comp : α → α → Bool) (first last : Nat)
    (l aux : List α) (h1 : first ≤ last) (h2 : last ≤ l.length)
    (haux : last - first ≤ aux.length) :
    (∀ p, p < first ∨ last ≤ p → (insertion_sort first last comp l)[p]? = l[p]?) ∧
      (∀ p, p < first ∨ last ≤ p → (shell_sort first last comp l)[p]? = l[p]?) ∧
      (∀ p, p < first ∨ last ≤ p → (merge_sort first last comp l aux)[p]? = l[p]?) :=
  ⟨(insertion_sort_basic first last comp l h2).2,
    (shell_sort_basic first last comp l h2).2,
    merge_sort_frame comp first last l aux h1 h2⟩

/-- Witness for C9: a sort of the subrange `[1, 3)` of a four-element
sequence, with a two-element auxiliary buffer. -/
theorem sorts_touch_only_range_witness :
    (1 ≤ 3 ∧ 3 ≤ ([10, 5, 2, 7] : List Nat).length ∧
        3 - 1 ≤ ([0, 0] : List Nat).length) ∧
      ((∀ p, p < 1 ∨ 3 ≤ p →
          (insertion_sort 1 3 natLt [10, 5, 2, 7])[p]? = ([10, 5, 2, 7] : List Nat)[p]?) ∧
        (∀ p, p < 1 ∨ 3 ≤ p →
          (shell_sort 1 3 natLt [10, 5, 2, 7])[p]? = ([10, 5, 2, 7] : List Nat)[p]?) ∧
        (∀ p, p < 1 ∨ 3 ≤ p →
          (merge_sort 1 3 natLt [10, 5, 2, 7] [0, 0])[p]? = ([10, 5, 2, 7] : List Nat)[p]?)) :=
  ⟨⟨by omega, by decide, by decide⟩,
    sorts_touch_only_range natLt 1 3 [10, 5, 2, 7] [0, 0] (by omega) (by decide)
      (by decide)⟩

/-!  ### `std::merge` and `merge_sort` on cutoff-sized ranges -/

theorem mergeListsF_perm (comp : α → α → Bool) :
    ∀ (fuel : Nat) (xs ys : List α),
      List.Perm (mergeListsF comp fuel xs ys) (xs ++ ys) := by
  intro fuel
  induction fuel with
  | zero => intro xs ys; exact List.Perm.refl _
  | succ fuel ih =>
    intro xs ys
    match xs, ys with
    | [], ys => simp only [mergeListsF, List.nil_append]; exact List.Perm.refl _
    | x :: xs, [] => simp only [mergeListsF, List.append_nil]; exact List.Perm.refl _
    | x :: xs, y :: ys =>
      simp only [mergeListsF]
      by_cases hc : comp y x = true
      · rw [if_pos hc]
        exact (List.Perm.cons y (ih (x :: xs) ys)).trans List.perm_middle.symm
      · rw [if_neg hc]
        exact List.Perm.cons x (ih xs (y :: ys))

theorem mergeLists_perm (comp : α → α → Bool) (xs ys : List α) :
    List.Perm (mergeLists comp xs ys) (xs ++ ys) :=
  mergeListsF_perm comp _ xs ys

theorem length_mergeLists (comp : α → α → Bool) (xs ys : List α) :
    (mergeLists comp xs ys).length = xs.length + ys.length := by
  rw [(mergeLists_perm comp xs ys).length_eq, List.length_append]

/-- `std::merge` of two sorted ranges is sorted (for a strict weak
ordering). -/
theorem mergeListsF_sorted {comp : α → α → Bool} (hswo : SWO comp) :
    ∀ (fuel : Nat) (xs ys : List α), xs.length + ys.length ≤ fuel →
      List.Pairwise (fun a b => comp b a = false) xs →
      List.Pairwise (fun a b => comp b a = false) ys →
      List.Pairwise (fun a b => comp b a = false) (mergeListsF comp fuel xs ys) := by
  intro fuel
  induction fuel with
  | zero =>
    intro xs ys hl hxs hys
    have hx : xs = [] := List.length_eq_zero.mp (by omega)
    have hy : ys = [] := List.length_eq_zero.mp (by omega)
    subst hx; subst hy
    simp [mergeListsF]
  | succ fuel ih =>
    intro xs ys hl hxs hys
    match xs, ys with
    | [], ys => simpa only [mergeListsF] using hys
    | x :: xs, [] => simpa only [mergeListsF] using hxs
    | x :: xs, y :: ys =>
      rw [List.length_cons, List.length_cons] at hl
      obtain ⟨hxhead, hxtail⟩ := List.pairwise_cons.mp hxs
      obtain ⟨hyhead, hytail⟩ := List.pairwise_cons.mp hys
      simp only [mergeListsF]
      by_cases hc : comp y x = true
      · rw [if_pos hc, List.pairwise_cons]
        constructor
        · intro z hz
          have hz2 := (mergeListsF_perm comp fuel (x :: xs) ys).mem_iff.mp hz
          rw [List.mem_append] at hz2
          rcases hz2 with hz2 | hz2
          · rcases List.mem_cons.mp hz2 with rfl | hz3
            · exact hswo.asymm hc
            · exact hswo.ge_trans (hswo.asymm hc) (hxhead z hz3)
          · exact hyhead z hz2
        · exact ih (x :: xs) ys (by simp only [List.length_cons]; omega) hxs hytail
      · rw [if_neg hc, List.pairwise_cons]
        rw [Bool.not_eq_true] at hc
        constructor
        · intro z hz
          have hz2 := (mergeListsF_perm comp fuel xs (y :: ys)).mem_iff.mp hz
          rw [List.mem_append] at hz2
          rcases hz2 with hz2 | hz2
          · exact hxhead z hz2
          · rcases List.mem_cons.mp hz2 with rfl | hz3
            · exact hc
            · exact hswo.ge_trans hc (hyhead z hz3)
        · exact ih xs (y :: ys) (by simp only [List.length_cons]; omega) hxtail hys

theorem mergeLists_sorted {comp : α → α → Bool} (hswo : SWO comp) (xs ys : List α)
    (hxs : List.Pairwise (fun a b => comp b a = false) xs)
    (hys : List.Pairwise (fun a b => comp b a = false) ys) :
    List.Pairwise (fun a b => comp b a = false) (mergeLists comp xs ys) :=
  mergeListsF_sorted hswo _ xs ys (le_refl _) hxs hys

/-- A pairwise-sorted list is `sortedOn` its whole index range. -/
theorem sortedOn_of_pairwise {comp : α → α → Bool} (hswo : SWO comp) {l : List α}
    (h : List.Pairwise (fun a b => comp b a = false) l) :
    sortedOn comp l 0 l.length := by
  intro p q h1 h2 h3
  rcases Nat.eq_or_lt_of_le h2 with rfl | hlt
  · exact hswo.irrefl _
  · rw [idx_eq_getElem h3, idx_eq_getElem (show p < l.length by omega)]
    exact List.pairwise_iff_getElem.mp h p q (by omega) h3 hlt

/-- A `sortedOn` segment is pairwise-sorted as a list. -/
theorem pairwise_seg_of_sortedOn {comp : α → α → Bool} {l : List α} {a b : Nat}
    (hb : b ≤ l.length) (hs : sortedOn comp l a b) :
    List.Pairwise (fun x y => comp y x = false) (seg l a b) := by
  rw [List.pairwise_iff_getElem]
  intro i j hi hj hij
  have hi' : i < b - a := by rw [length_seg l hb] at hi; exact hi
  have hj' : j < b - a := by rw [length_seg l hb] at hj; exact hj
  rw [← idx_eq_getElem hi, ← idx_eq_getElem hj, idx_seg l hi', idx_seg l hj']
  exact hs (a + i) (a + j) (by omega) (by omega) (by omega)

/-!  ### Unfolding lemmas for the fueled loops of `merge_sort` -/

theorem cutRunsF_exit (last cutoff : Nat) (comp : α → α → Bool) (fuel lo : Nat)
    (l : List α) (hlo : ¬ lo < last) : cutRunsF last cutoff comp fuel lo l = l := by
  cases fuel with
  | zero => rfl
  | succ fuel => simp only [cutRunsF, if_neg hlo]

theorem cutRunsF_step (last cutoff : Nat) (comp : α → α → Bool) (fuel lo : Nat)
    (l : List α) (hf : fuel ≠ 0) (hlo : lo < last) :
    cutRunsF last cutoff comp fuel lo l =
      cutRunsF last cutoff comp (fuel - 1) (lo + cutoff)
        (insertion_sort lo (if last < lo + cutoff then last else lo + cutoff) comp l) := by
  obtain ⟨f, rfl⟩ : ∃ f, fuel = f + 1 := ⟨fuel - 1, by omega⟩
  simp only [cutRunsF, if_pos hlo, Nat.add_sub_cancel]

theorem mergeLoopF_exit (first last : Nat) (comp : α → α → Bool) (fuel sz : Nat)
    (l aux : List α) (hsz : ¬ sz < last - first) :
    mergeLoopF first last comp fuel sz l aux = l := by
  cases fuel with
  | zero => rfl
  | succ fuel => simp only [mergeLoopF, if_neg hsz]

theorem mergeLoopF_step (first last : Nat) (comp : α → α → Bool) (fuel sz : Nat)
    (l aux : List α) (hf : fuel ≠ 0) (hsz : sz < last - first) :
    mergeLoopF first last comp fuel sz l aux =
      mergeLoopF first last comp (fuel - 1) (2 * sz)
        (writeSeg l first
          ((mergePassF first last sz comp (last + 1) first l aux).take (last - first)))
        (mergePassF first last sz comp (last + 1) first l aux) := by
  obtain ⟨f, rfl⟩ : ∃ f, fuel = f + 1 := ⟨fuel - 1, by omega⟩
  simp only [mergeLoopF, if_pos hsz, Nat.add_sub_cancel]

theorem mergePassF_exit (first last sz : Nat) (comp : α → α → Bool) (fuel lo : Nat)
    (l aux : List α) (hlo : ¬ lo < last - sz) :
    mergePassF first last sz comp fuel lo l aux = aux := by
  cases fuel with
  | zero => rfl
  | succ fuel => simp only [mergePassF, if_neg hlo]

theorem mergePassF_step (first last sz : Nat) (comp : α → α → Bool) (fuel lo : Nat)
    (l aux : List α) (hf : fuel ≠ 0) (hlo : lo < last - sz) :
    mergePassF first last sz comp fuel lo l aux =
      mergePassF first last sz comp (fuel - 1) (lo + 2 * sz) l
        (writeSeg aux (lo - first)
          (mergeLists comp (seg l lo (lo + sz))
            (seg l (lo + sz) (if last < lo + 2 * sz then last else lo + 2 * sz)))) := by
  obtain ⟨f, rfl⟩ : ∃ f, fuel = f + 1 := ⟨fuel - 1, by omega⟩
  simp only [mergePassF, if_pos hlo, Nat.add_sub_cancel]

/-- On a range of length exactly the cutoff (16), `merge_sort` performs a
single insertion sort and no merge pass. -/
theorem merge_sort_eq_16 (comp : α → α → Bool) (l aux : List α) :
    merge_sort 0 16 comp l aux = insertion_sort 0 16 comp l := by
  simp only [merge_sort]
  norm_num
  rw [mergeLoopF_exit _ _ _ _ _ _ _ (by norm_num)]
  rw [cutRunsF_step _ _ _ _ _ _ (by norm_num) (by norm_num)]
  norm_num
  rw [cutRunsF_exit _ _ _ _ _ _ (by norm_num)]

/-- On a range of length 17, `merge_sort` insertion-sorts the runs
`[0, 16)` and `[16, 17)` and then performs exactly one merge pass writing
the merged 17 elements into `aux[0, 17)`, copied back over the range. -/
theorem merge_sort_eq_17 (comp : α → α → Bool) (l aux : List α) :
    merge_sort 0 17 comp l aux =
      writeSeg (insertion_sort 16 17 comp (insertion_sort 0 16 comp l)) 0
        ((writeSeg aux 0
          (mergeLists comp
            (seg (insertion_sort 16 17 comp (insertion_sort 0 16 comp l)) 0 16)
            (seg (insertion_sort 16 17 comp (insertion_sort 0 16 comp l)) 16 17))).take
          17) := by
  simp only [merge_sort]
  norm_num
  rw [cutRunsF_step _ _ _ _ _ _ (by norm_num) (by norm_num)]
  norm_num
  rw [cutRunsF_step _ _ _ _ _ _ (by norm_num) (by norm_num)]
  norm_num
  rw [cutRunsF_exit _ _ _ _ _ _ (by norm_num)]
  rw [mergeLoopF_step _ _ _ _ _ _ _ (by norm_num) (by norm_num)]
  rw [mergeLoopF_exit _ _ _ _ _ _ _ (by norm_num)]
  rw [mergePassF_step _ _ _ _ _ _ _ _ (by norm_num) (by norm_num)]
  norm_num
  rw [mergePassF_exit _ _ _ _ _ _ _ _ (by norm_num)]

/-- C7: for ranges of size exactly the insertion-sort cutoff (16) and of
size 17, with a valid strict weak ordering and an auxiliary buffer of
capacity at least the range length, `merge_sort` leaves the range
non-decreasing under `comp` and a permutation of the original multiset. -/
theorem merge_sort_cutoff_sizes {comp : α → α → Bool} (hswo : SWO comp)
    (l aux : List α) (hn : l.length = 16 ∨ l.length = 17)
    (haux : l.length ≤ aux.length) :
    sortedOn comp (merge_sort 0 l.length comp l aux) 0 l.length ∧
      List.Perm (merge_sort 0 l.length comp l aux) l := by
  rcases hn with hn | hn
  · rw [hn, merge_sort_eq_16 comp l aux]
    obtain ⟨hp, hperm, _⟩ := insertion_sort_spec hswo 0 16 l (by omega)
    exact ⟨sortedOn_of_pairs hswo hp, hperm⟩
  · rw [hn, merge_sort_eq_17 comp l aux]
    obtain ⟨hp1, hperm1, hframe1⟩ := insertion_sort_spec hswo 0 16 l (by omega)
    have hlen1 : (insertion_sort 0 16 comp l).length = l.length := hperm1.length_eq
    obtain ⟨hp2, hperm2, hframe2⟩ :=
      insertion_sort_spec hswo 16 17 (insertion_sort 0 16 comp l) (by omega)
    set l2 := insertion_sort 16 17 comp (insertion_sort 0 16 comp l) with hl2def
    have hlen2 : l2.length = 17 := by rw [hl2def, hperm2.length_eq, hlen1, hn]
    set M := mergeLists comp (seg l2 0 16) (seg l2 16 17) with hMdef
    have hpairs2a : ∀ p, 0 + 1 ≤ p → p < 16 →
        comp (idx l2 p) (idx l2 (p - 1)) = false := by
      intro p hq1 hq2
      rw [idx_congr (hframe2 p (Or.inl hq2)),
        idx_congr (hframe2 (p - 1) (Or.inl (by omega)))]
      exact hp1 p hq1 hq2
    have hsorted2a : sortedOn comp l2 0 16 := sortedOn_of_pairs hswo hpairs2a
    have hsorted2b : sortedOn comp l2 16 17 := sortedOn_of_pairs hswo hp2
    have hpw1 : List.Pairwise (fun a b => comp b a = false) (seg l2 0 16) :=
      pairwise_seg_of_sortedOn (by omega) hsorted2a
    have hpw2 : List.Pairwise (fun a b => comp b a = false) (seg l2 16 17) :=
      pairwise_seg_of_sortedOn (by omega) hsorted2b
    have hM : List.Pairwise (fun a b => comp b a = false) M :=
      mergeLists_sorted hswo _ _ hpw1 hpw2
    have hMlen : M.length = 17 := by
      rw [hMdef, length_mergeLists, length_seg l2 (by omega), length_seg l2 (by omega)]
    have htake : (writeSeg aux 0 M).take 17 = M := by
      rw [writeSeg_eq_append M aux 0 (by omega)]
      simp only [List.take_zero, List.nil_append, Nat.zero_add]
      rw [← hMlen, List.take_left]
    have hfinal : writeSeg l2 0 M = M := by
      rw [writeSeg_eq_append M l2 0 (by omega)]
      simp only [List.take_zero, List.nil_append, Nat.zero_add]
      rw [hMlen, ← hlen2, List.drop_length, List.append_nil]
    rw [htake, hfinal]
    have hMperm : List.Perm M l2 := by
      refine (mergeLists_perm comp _ _).trans ?_
      rw [seg_append l2 (by omega) (by omega) (by omega)]
      rw [← hlen2, seg_zero_length]
    constructor
    · have hs := sortedOn_of_pairwise hswo hM
      rw [hMlen] at hs
      exact hs
    · exact hMperm.trans (hperm2.trans hperm1)

/-- Witness for C7: a 16-element reverse-sorted range (exactly the cutoff
size), with an auxiliary buffer of capacity 16. -/
theorem merge_sort_cutoff_sizes_witness :
    (SWO natLt ∧
        (([16, 15, 14, 13, 12, 11, 10, 9, 8, 7, 6, 5, 4, 3, 2, 1] : List Nat).length = 16 ∨
          ([16, 15, 14, 13, 12, 11, 10, 9, 8, 7, 6, 5, 4, 3, 2, 1] : List Nat).length = 17) ∧
        ([16, 15, 14, 13, 12, 11, 10, 9, 8, 7, 6, 5, 4, 3, 2, 1] : List Nat).length ≤
          (List.replicate 16 0).length) ∧
      (sortedOn natLt
          (merge_sort 0
            ([16, 15, 14, 13, 12, 11, 10, 9, 8, 7, 6, 5, 4, 3, 2, 1] : List Nat).length
            natLt [16, 15, 14, 13, 12, 11, 10, 9, 8, 7, 6, 5, 4, 3, 2, 1]
            (List.replicate 16 0))
          0 ([16, 15, 14, 13, 12, 11, 10, 9, 8, 7, 6, 5, 4, 3, 2, 1] : List Nat).length ∧
        List.Perm
          (merge_sort 0
            ([16, 15, 14, 13, 12, 11, 10, 9, 8, 7, 6, 5, 4, 3, 2, 1] : List Nat).length
            natLt [16, 15, 14, 13, 12, 11, 10, 9, 8, 7, 6, 5, 4, 3, 2, 1]
            (List.replicate 16 0))
          [16, 15, 14, 13, 12, 11, 10, 9, 8, 7, 6, 5, 4, 3, 2, 1]) :=
  ⟨⟨swo_natLt, Or.inl (by decide), by decide⟩,
    merge_sort_cutoff_sizes swo_natLt
      [16, 15, 14, 13, 12, 11, 10, 9, 8, 7, 6, 5, 4, 3, 2, 1] (List.replicate 16 0)
      (Or.inl (by decide)) (by decide)⟩

/-- C1: the claim fails on the code, at the spec's own concrete scenario.
On the 40-element reverse-sorted sequence with an all-zero auxiliary buffer
of capacity 40, `merge_sort` does not produce the ascending sequence
`[1, …, 40]`: the first merge pass (sz = 16) leaves the dangling third run's
region `aux[32, 40)` unwritten, yet `std::copy(aux, aux + dim, first)`
copies the whole buffer back, so the scratch contents overwrite positions
32–39.  The result is eight copies of the scratch value 0 followed by
`[9, …, 40]` — neither sorted-and-complete nor a permutation of the input. -/
theorem merge_sort_wrong_at_40 :
    merge_sort 0 40 natLt rev40 (List.replicate 40 0)
        = List.replicate 8 0 ++ (List.range 32).map (fun i => i + 9) ∧
      ¬ merge_sort 0 40 natLt rev40 (List.replicate 40 0) = asc40 := by
  constructor
  · decide
  · decide

/-- C6: the claim fails on the code for `merge_sort`: sorting the
already-sorted 40-element sequence `[1, …, 40]` with an all-zero auxiliary
buffer does not leave it unchanged — the dangling-run regions of the
auxiliary buffer are copied back over positions 32–39. -/
theorem merge_sort_changes_sorted_40 :
    ¬ merge_sort 0 40 natLt asc40 (List.replicate 40 0) = asc40 := by
  decide

/-- C5: the claim fails on the code for `merge_sort`: on a 40-element input
with duplicate keys (each key `k ∈ [1, 19]` appears twice with distinct
labels), ordered by key only, the two key-1 elements `(1, 37), (1, 38)` are
destroyed outright by the aux-copy bug, so the relative order of equal-key
elements is not preserved (the key-1 subsequence of the output is empty). -/
theorem merge_sort_unstable_at_40 :
    (merge_sort 0 40 pairLt keyed40 (List.replicate 40 (0, 0))).filter
        (fun p => p.1 == 1) = [] ∧
      keyed40.filter (fun p => p.1 == 1) = [(1, 37), (1, 38)] := by
  constructor
  · decide
  · decide

/-- C2, counterexample: at `n = 14` the code returns `4 = kterm 1`, which is
not strictly less than `n / 3 = 4` at all, while the largest term of the
Knuth sequence strictly below `14 / 3` is `kterm 0 = 1`.  So `knuth_seq`
does not return the largest term strictly less than `n / 3`. -/
theorem knuth_seq_not_largest_below_third :
    knuth_seq 14 = 4 ∧ 14 / 3 = 4 ∧ ¬ knuth_seq 14 < 14 / 3 ∧
      kterm 0 = 1 ∧ kterm 1 = 4 := by
  decide

/-- C8: `shell_sort` is not stable: there is an input with duplicate-key
labelled elements and a valid strict weak ordering on the keys (the key-only
comparator `pairLt`) such that the sort permutes the range but changes the
relative order of equal-key elements: the key-1 subsequence of the output
starts with label 4, while in the input label 1 comes first. -/
theorem shell_sort_not_stable :
    ∃ inp : List (Nat × Nat), SWO pairLt ∧
      List.Perm (shell_sort 0 inp.length pairLt inp) inp ∧
      ¬ (shell_sort 0 inp.length pairLt inp).filter (fun p => p.1 == 1)
          = inp.filter (fun p => p.1 == 1) := by
  refine ⟨[(2, 0), (1, 1), (1, 2), (1, 3), (1, 4), (1, 5)], swo_pairLt, ?_, ?_⟩
  · decide
  · decide

end futil
